import Mathlib

/-!
Verification of the QuizSmith batch pipeline (`multiple_book.py` and the
single-book suggestion service) against its natural-language specification.

The Python source is shallowly embedded: pure fragments become Lean
functions, network calls become oracle parameters (a function from the
request to the response the remote side would give), and exceptions become
explicit variants.  Strings are modelled as `List Char`; Python character
classes (`\s`, `\d`, `\w`) are modelled at ASCII granularity, which covers
every input appearing in the claims.
-/

namespace QuizSmith

/-! ## Per-item pipeline results and the batch orchestrator
    (`multiple_book.py`, `process_books_in_batches`, lines 214-247) -/

/-- Result of one element of `asyncio.gather(*tasks, return_exceptions=True)`:
`process_single_book` returned `True`, returned `False`, or an exception was
captured by `gather`. -/
inductive PipeResult
  | success
  | failure
  | exn
deriving DecidableEq, Repr

/-- The running counters `results = {"successful": 0, "failed": 0}`. -/
structure Counters where
  successful : Nat
  failed : Nat
deriving DecidableEq, Repr

/-- The counting loop over `batch_results` (lines 233-240):
exceptions and `False` increment `failed`, `True` increments `successful`. -/
def countBatch (acc : Counters) : List PipeResult → Counters
  | [] => acc
  | r :: rs =>
    countBatch
      (match r with
       | .exn => { acc with failed := acc.failed + 1 }
       | .success => { acc with successful := acc.successful + 1 }
       | .failure => { acc with failed := acc.failed + 1 })
      rs

/-- The slicing `books[i:i+batch_size]` for `i in range(0, len(books), batch_size)`
(line 224-225).  Only meaningful for `B > 0`; Python raises for step 0. -/
def chunks (B : Nat) : List α → List (List α)
  | [] => []
  | x :: xs => (x :: xs.take (B - 1)) :: chunks B (xs.drop (B - 1))
termination_by l => l.length
decreasing_by
  simp only [List.length_cons, List.length_drop]
  omega

/-- `asyncio.gather(*tasks, return_exceptions=True)` (lines 229-230): one
result per task of the window, in window order; an exception of one task is
captured as a value and never cancels a sibling.  `run1` gives each item's
own pipeline result. -/
def batchResults (run1 : α → PipeResult) (batch : List α) : List PipeResult :=
  batch.map run1

/-- The whole batch loop (lines 224-247), returning the final counters. -/
def process_books_in_batches (run1 : α → PipeResult) (books : List α) (B : Nat) :
    Counters :=
  (chunks B books).foldl (fun acc batch => countBatch acc (batchResults run1 batch))
    ⟨0, 0⟩

/-- Number of times `await asyncio.sleep(2)` runs: once per iteration with
`i + batch_size < len(books)` (line 243), i.e. whenever the current window is
not the last one. -/
def delayCount (B : Nat) : List α → Nat
  | [] => 0
  | x :: xs =>
    (if (xs.drop (B - 1)).isEmpty then 0 else 1) + delayCount B (xs.drop (B - 1))
termination_by l => l.length
decreasing_by
  simp only [List.length_cons, List.length_drop]
  omega

/-! ## Python string helpers (ASCII model of `str.strip`, `\s`, `\d`, `\w`) -/

/-- Python `\s` at ASCII granularity: space, tab, newline, carriage return,
vertical tab, form feed. -/
def wsChar (c : Char) : Bool :=
  c = ' ' || c = '\t' || c = '\n' || c = '\r' || c = '\x0b' || c = '\x0c'

/-- Python `\d` at ASCII granularity. -/
def digitChar (c : Char) : Bool := c.isDigit

/-- Python `\w` at ASCII granularity: alphanumeric or underscore. -/
def wordChar (c : Char) : Bool := c.isAlphanum || c = '_'

/-- Python `str.strip()`: drop whitespace from both ends. -/
def pyStrip (l : List Char) : List Char :=
  ((l.dropWhile wsChar).reverse.dropWhile wsChar).reverse

/-! ## Title Resolver (`get_book_by_title`, lines 88-144) -/

/-- One element of the `result` list of a `200` lookup response: a JSON dict
carrying `nid` (a real book entry) or anything else (pagination metadata,
non-dict noise) that the filter on line 114 discards. -/
inductive RItem
  | entry (nid : Int) (title : List Char)
  | meta
deriving DecidableEq, Repr

/-- Whether `isinstance(item, dict) and 'nid' in item` holds (line 114). -/
def isEntry : RItem → Bool
  | .entry _ _ => true
  | .meta => false

/-- Outcome of one `session.get` lookup attempt, as the resolver observes it:
a parsed `200` body, a `404`, any other status, or a raised exception
(transport error, body-parse error) caught by the `except` on line 142. -/
inductive LookupResp
  | ok (success : Bool) (result : List RItem)
  | notFound
  | apiError (code : Nat)
  | raiseErr
deriving DecidableEq, Repr

/-- The body of the `status == 200` branch (lines 109-117 and 132-139):
`data.get("success") and data.get("result")` truthiness, then the `nid`
filter, then first match.  Non-200 outcomes yield nothing. -/
def hitOf : LookupResp → Option RItem
  | .ok success result =>
    if success && !result.isEmpty then
      let book_list := result.filter isEntry
      book_list.head?
    else none
  | _ => none

/-- Lines 92-95: strip the literal prefix `Let's ` (6 characters) when
present. -/
def searchTitleOf (title : List Char) : List Char :=
  if "Let's ".data.isPrefixOf title then title.drop 6 else title

/-- Line 125: `re.sub(r'[^\w\s]', '', search_title).strip()` — keep word
characters and whitespace, then strip. -/
def simplifiedTitleOf (s : List Char) : List Char :=
  pyStrip (s.filter (fun c => wordChar c || wsChar c))

/-- What the resolver returns together with the lookup queries it issued, in
order.  `lookup` is the oracle for `session.get` on the by-title endpoint. -/
structure ResolveResult where
  found : Option RItem
  queries : List (List Char)
deriving DecidableEq, Repr

/-- `get_book_by_title` (lines 88-144).  A raised exception anywhere inside
the `try` returns `None` (line 142-144); otherwise a first attempt with the
processed title, and — whenever that attempt did not return a book — a second
attempt with the simplified title, issued only when it differs. -/
def get_book_by_title (lookup : List Char → LookupResp) (title : List Char) :
    ResolveResult :=
  let search_title := searchTitleOf title
  match lookup search_title with
  | .raiseErr => ⟨none, [search_title]⟩
  | r1 =>
    match hitOf r1 with
    | some b => ⟨some b, [search_title]⟩
    | none =>
      let simplified_title := simplifiedTitleOf search_title
      if simplified_title ≠ search_title then
        match lookup simplified_title with
        | .raiseErr => ⟨none, [search_title, simplified_title]⟩
        | r2 => ⟨hitOf r2, [search_title, simplified_title]⟩
      else ⟨none, [search_title]⟩

/-- Modelled from the spec's words, for comparison with the source's
`simplifiedTitleOf` (claim C5): "derive a simplified query by removing every
character that is not alphanumeric or whitespace from the primary query". -/
def specSimplifiedQuery (s : List Char) : List Char :=
  s.filter (fun c => c.isAlphanum || wsChar c)

/-! ## Quiz submission (`create_quiz`, lines 146-166) -/

/-- What the poster observes from `session.post` on `quizz/create`: a status
plus whether `await response.json()` would parse, or a raised transport
error. -/
inductive PostResp
  | resp (status : Nat) (bodyParses : Bool)
  | raiseErr
deriving DecidableEq, Repr

/-- `create_quiz` (lines 146-166): success exactly when the status is 200 or
201 and the body parses as JSON; any exception (transport, body parse) is
caught and yields `False`. -/
def create_quiz : PostResp → Bool
  | .resp status bodyParses =>
    if status = 200 || status = 201 then bodyParses else false
  | .raiseErr => false

/-! ## Formatter output validation
    (`single_book_suggestion.py` / `single_book_suggestion_schema.py`) -/

/-- JSON values, as `json.loads` produces them. -/
inductive JValue
  | jNull
  | jBool (b : Bool)
  | jInt (n : Int)
  | jStr (s : List Char)
  | jArr (items : List JValue)
  | jObj (fields : List (List Char × JValue))

/-- Field lookup in a JSON object. -/
def jGet (fields : List (List Char × JValue)) (k : List Char) : Option JValue :=
  (fields.find? (fun f => f.1 = k)).map Prod.snd

/-- The parsed `single_book_suggestion_response`: `bookId: int`,
`bookName: str`, `questions: List[Dict[str, Any]]`. -/
structure SBResponse where
  bookId : Int
  bookName : List Char
  questions : List (List (List Char × JValue))

/-- Collect the `questions` entries, requiring each to be a JSON object
(`Dict[str, Any]`); anything else fails validation. -/
def asDictList : List JValue → Option (List (List (List Char × JValue)))
  | [] => some []
  | .jObj fields :: rest => (asDictList rest).map (fields :: ·)
  | _ => none

/-- `single_book_suggestion_response(**response_json)` (schema lines 8-11):
pydantic checks only the declared field types — `bookId` an int, `bookName` a
string, `questions` a list of dicts.  No invariant on the question contents
is checked. -/
def validate_response : JValue → Option SBResponse
  | .jObj fields =>
    match jGet fields "bookId".data, jGet fields "bookName".data,
        jGet fields "questions".data with
    | some (.jInt i), some (.jStr n), some (.jArr qs) =>
      (asDictList qs).map (fun ds => ⟨i, n, ds⟩)
    | _, _, _ => none
  | _ => none

/-- Read a string array out of a question field. -/
def asStrList : List JValue → Option (List (List Char))
  | [] => some []
  | .jStr s :: rest => (asStrList rest).map (s :: ·)
  | _ => none

/-- Modelled from the spec's words (§3, claim C8), for comparison with the
source's `validate_response`: "for each question, `correctAnswers` is
non-empty and a subset of `options`, and question numbers are unique and
increasing within the quiz".  The source has no corresponding check. -/
def specQuestionOk (q : List (List Char × JValue)) : Bool :=
  match jGet q "options".data, jGet q "correctAnswers".data with
  | some (.jArr os), some (.jArr cs) =>
    match asStrList os, asStrList cs with
    | some options, some correct =>
      !correct.isEmpty && correct.all (fun c => options.contains c)
    | _, _ => false
  | _, _ => false

/-- Adjacent-pairs strict increase (hence uniqueness) of a number list. -/
def strictlyIncreasing : List Int → Bool
  | [] => true
  | [_] => true
  | a :: b :: rest => decide (a < b) && strictlyIncreasing (b :: rest)

/-- Modelled from the spec's words (§3, claim C8): question numbers (field
`questionNo`) are strictly increasing (hence unique) within the quiz, and
every question satisfies `specQuestionOk`. -/
def specQuizInvariants (r : SBResponse) : Bool :=
  r.questions.all specQuestionOk &&
    strictlyIncreasing (r.questions.filterMap (fun q =>
      match jGet q "questionNo".data with
      | some (.jInt n) => some n
      | _ => none))

/-! ## Parsed items and the per-item pipeline -/

/-- `BookData` (lines 25-30). -/
structure BookData where
  book_number : List Char
  title : List Char
  author : List Char
  quiz_content : List Char
deriving DecidableEq, Repr

/-- Outcome of `await self.ai_suggestion.get_suggestion(...)`: a parsed,
schema-valid response, or a raised exception (transport, `json.loads`
failure, pydantic validation failure). -/
inductive FormatOutcome
  | ok (r : SBResponse)
  | raiseErr

/-- `process_single_book` (lines 168-212): stop with `False` when the book is
unresolved; a raise from the formatter is caught by the `except` on line 210
and yields `False`; otherwise the result is `create_quiz`'s.  The function
always returns a `Bool` — it never lets an exception escape. -/
def process_single_book (book_info : Option RItem) (ai : FormatOutcome)
    (submit : PostResp) : Bool :=
  match book_info with
  | none => false
  | some _ =>
    match ai with
    | .raiseErr => false
    | .ok _ => create_quiz submit

/-! ## A backtracking matcher for the parser's two regular expressions
    (`parse_multiple_books`, lines 52-86) -/

/-- One atom of the star-free patterns the parser uses: a literal character,
or a one-or-more run over a character class (`X+` greedy, `X+?` lazy),
optionally capturing as a numbered group. -/
inductive Atom
  | lit (c : Char)
  | plus (p : Char → Bool) (lazyRun : Bool) (cap : Option Nat)

/-- Backtracking matcher for an atom list against a prefix of `s`, returning
the captured groups and the remaining suffix of the first overall match in
backtracking order: greedy runs try longer consumptions first, lazy runs
shorter ones — Python `re`'s order for this fragment. -/
def matchSeq : List Atom → List Char → Option (List (Nat × List Char) × List Char)
  | [], s => some ([], s)
  | .lit _ :: _, [] => none
  | .lit c :: as, x :: s => if x = c then matchSeq as s else none
  | .plus p lazyRun cap :: as, s =>
    let m := (s.takeWhile p).length
    let ks := if lazyRun then List.range' 1 m else (List.range' 1 m).reverse
    ks.findSome? (fun k =>
      (matchSeq as (s.drop k)).map (fun cr =>
        (match cap with
         | some i => (i, s.take k) :: cr.1
         | none => cr.1, cr.2)))

/-- `[^\[\n]` (title run of the splitting pattern). -/
def titleCharSplit (c : Char) : Bool := !(c = '[' || c = '\n')

/-- `[^\[]` (title run of the header pattern). -/
def titleCharHeader (c : Char) : Bool := !(c = '[')

/-- `[^\]]` (author run of both patterns). -/
def authorChar (c : Char) : Bool := !(c = ']')

/-- The splitting pattern `(Book\s+\d+\s+[^\[\n]+\s+\[[^\]]+\])` (line 58). -/
def splitAtoms : List Atom :=
  [.lit 'B', .lit 'o', .lit 'o', .lit 'k',
   .plus wsChar false none, .plus digitChar false none, .plus wsChar false none,
   .plus titleCharSplit false none, .plus wsChar false none,
   .lit '[', .plus authorChar false none, .lit ']']

/-- The header pattern `Book\s+(\d+)\s+([^\[]+?)\s+\[([^\]]+)\]` used with
`re.match` (line 70): same shape with a lazy title and three capture
groups. -/
def headerAtoms : List Atom :=
  [.lit 'B', .lit 'o', .lit 'o', .lit 'k',
   .plus wsChar false none, .plus digitChar false (some 1),
   .plus wsChar false none,
   .plus titleCharHeader true (some 2), .plus wsChar false none,
   .lit '[', .plus authorChar false (some 3), .lit ']']

/-- Declarative matching for an atom list: `MSeq as s r` holds when `as` can
match some prefix of `s` leaving exactly the suffix `r`.  Laziness and
capture indices do not affect matchability, only which decomposition the
backtracking engine reaches first. -/
inductive MSeq : List Atom → List Char → List Char → Prop
  | nil (s : List Char) : MSeq [] s s
  | lit {c : Char} {as : List Atom} {s r : List Char} :
      MSeq as s r → MSeq (.lit c :: as) (c :: s) r
  | plus {p : Char → Bool} {lazyRun : Bool} {cap : Option Nat}
      {as : List Atom} {w s r : List Char} :
      w ≠ [] → (∀ c ∈ w, p c = true) → MSeq as s r →
      MSeq (.plus p lazyRun cap :: as) (w ++ s) r

/-- Modelled from the spec's words (claim C4 and §6): a section header is
well-formed when the whole header line has the shape
`Book <number> <title> [<author>]`, i.e. is a full match of the header
pattern. -/
def specHeaderOk (line : List Char) : Bool :=
  match matchSeq headerAtoms line with
  | some (_, []) => true
  | _ => false

/-- The scan `re.split(book_pattern, content)` performs (line 61), in
structured form: the text before the first match, then for every
non-overlapping leftmost match of `splitAtoms` the pair (matched text, text
up to the next match or the end).  The `fuel` parameter only bounds the
recursion; by `matchSeq_split_rest_lt` any fuel of at least the input's
length is never exhausted. -/
def scanSplitF : Nat → List Char → List Char × List (List Char × List Char)
  | 0, s => (s, [])
  | _ + 1, [] => ([], [])
  | fuel + 1, x :: s' =>
    match matchSeq splitAtoms (x :: s') with
    | some cr =>
      let consumed := (x :: s').length - cr.2.length
      let res := scanSplitF fuel cr.2
      ([], ((x :: s').take consumed, res.1) :: res.2)
    | none =>
      let res := scanSplitF fuel s'
      (x :: res.1, res.2)

/-- The scan at adequate fuel. -/
def scanSplit (s : List Char) : List Char × List (List Char × List Char) :=
  scanSplitF s.length s

/-- The flat section list `re.split(book_pattern, content)` returns. -/
def re_split_book (content : List Char) : List (List Char) :=
  let res := scanSplit content
  res.1 :: res.2.flatMap (fun mt => [mt.1, mt.2])

/-- Python `re.sub(r'\s+', ' ', t)`: each maximal whitespace run becomes one
space.  The flag records whether the previous character was whitespace. -/
def collapseWsGo : Bool → List Char → List Char
  | _, [] => []
  | prevWs, c :: s =>
    if wsChar c then
      if prevWs then collapseWsGo true s else ' ' :: collapseWsGo true s
    else c :: collapseWsGo false s

/-- `re.sub(r'\s+', ' ', t)` (line 78). -/
def collapseWs (l : List Char) : List Char :=
  collapseWsGo false l

/-- Title cleanup (lines 73, 77-78): strip, the (identity) replacement of
`'` by `'`, and whitespace collapsing. -/
def cleanTitle (t : List Char) : List Char :=
  collapseWs ((pyStrip t).map (fun c => if c = '\'' then '\'' else c))

/-- Author cleanup (line 74): strip, then remove double quotes. -/
def cleanAuthor (a : List Char) : List Char :=
  (pyStrip a).filter (fun c => !(c = '"'))

/-- Run the header pattern on a section and extract the three groups
(lines 70-74). -/
def headerGroups (s : List Char) : Option (List Char × List Char × List Char) :=
  match matchSeq headerAtoms s with
  | some (caps, _) =>
    match (caps.find? (fun g => g.1 = 1)), (caps.find? (fun g => g.1 = 2)),
        (caps.find? (fun g => g.1 = 3)) with
    | some g1, some g2, some g3 => some (g1.2, g2.2, g3.2)
    | _, _, _ => none
  | none => none

/-- The loop of lines 64-85 over the split sections (odd indices are
headers, even indices bodies); the caller passes `sections.drop 1` so the
walk is pairwise.  A header failing `re.match` contributes nothing. -/
def processSections : List (List Char) → List BookData
  | h :: b :: rest =>
    let book_header := pyStrip h
    let book_content := pyStrip b
    (match headerGroups book_header with
     | some (num, title, author) =>
       [⟨num, cleanTitle title, cleanAuthor author,
         book_header ++ '\n' :: book_content⟩]
     | none => []) ++ processSections rest
  | _ => []

/-- `parse_multiple_books` (lines 52-86). -/
def parse_multiple_books (content : List Char) : List BookData :=
  processSections ((re_split_book content).drop 1)

/-! ## Result Reporter (`save_results_to_file`, lines 281-318) -/

/-- One line of the report file, abstracted over literal text: each
constructor is one `f.write` of lines 294-313, carrying the data
interpolated into it (the `%.1f` success-rate float carries its two integer
inputs). -/
inductive ReportLine
  | separator
  | titleBanner
  | processingDate (d : List Char)
  | totalBooks (n : Nat)
  | successfulCount (n : Nat)
  | failedCount (n : Nat)
  | successRate (successful total : Nat)
  | blank
  | detailsHeader
  | dashRule
  | bookLine (number title : List Char)
  | authorLine (author : List Char)
  | statusAttempted
  | fileLocation (f : List Char)
  | generatedBy
deriving DecidableEq, Repr

/-- The report body written by `save_results_to_file` (lines 293-313): header
block with aggregate counts, then for every book — in the order of the
parsed `books` list — its name, author, and the fixed line
`  Status: Processing attempted`.  The function receives only the aggregate
`results` counters; no per-item outcome reaches it. -/
def save_results_to_file (books : List BookData) (results : Counters)
    (dateStr fileStr : List Char) : List ReportLine :=
  [.separator, .titleBanner, .separator, .processingDate dateStr,
   .totalBooks books.length, .successfulCount results.successful,
   .failedCount results.failed, .successRate results.successful books.length,
   .blank, .detailsHeader, .dashRule]
  ++ books.flatMap (fun b =>
      [.bookLine b.book_number b.title, .authorLine b.author,
       .statusAttempted, .blank])
  ++ [.fileLocation fileStr, .generatedBy]

/-! ## Entry point (`process_all_books` lines 249-279, `main` lines 320-329) -/

/-- The process environment as the program reads it: `AUTH_TOKEN`, whether
`Multiple books.docx` exists, and the text `extract_text_from_docx` would
yield for it (that helper returns `""` on any extraction error). -/
structure Env where
  authToken : Option (List Char)
  fileExists : Bool
  extractedContent : List Char

/-- Python truthiness of `not self.auth_token`: missing or empty. -/
def tokenMissing : Option (List Char) → Bool
  | none => true
  | some t => t.isEmpty

/-- `MultipleBookProcessor.__init__` (lines 33-40): raises `ValueError` when
the token is missing. -/
def processorInit (env : Env) : Except (List Char) Unit :=
  if tokenMissing env.authToken then
    .error "AUTH_TOKEN not found in environment variables".data
  else .ok ()

/-- How a run of `process_all_books` ends. -/
inductive RunOutcome
  | noFile
  | noContent
  | noBooks
  | completed (results : Counters)
deriving DecidableEq, Repr

/-- `process_all_books` (lines 249-279): early `return` when the input file
is missing, extraction yields no content, or no book parses; otherwise run
the batches (and write the report).  Its own `try/except` means it never
raises. -/
def process_all_books (run1 : BookData → PipeResult) (env : Env) : RunOutcome :=
  if !env.fileExists then .noFile
  else if env.extractedContent.isEmpty then .noContent
  else
    let books := parse_multiple_books env.extractedContent
    if books.isEmpty then .noBooks
    else .completed (process_books_in_batches run1 books 3)

/-- What `main` (lines 320-326) observes: the `ValueError` from `__init__`
(caught by the `except` on line 325 and only logged), or the run's
outcome. -/
def pyMainTrace (run1 : BookData → PipeResult) (env : Env) :
    Except (List Char) RunOutcome :=
  match processorInit env with
  | .error e => .error e
  | .ok _ => .ok (process_all_books run1 env)

/-- The process exit status of `asyncio.run(main())` (lines 328-329): `main`
catches every exception and returns `None`, so the interpreter exits with
status 0 in every case. -/
def pyMainExit (run1 : BookData → PipeResult) (env : Env) : Nat :=
  match pyMainTrace run1 env with
  | .error _ => 0
  | .ok _ => 0

/-! ## Lemmas about the backtracking matcher -/

theorem matchSeq_rest_length_le :
    ∀ (as : List Atom) (s : List Char) cr,
      matchSeq as s = some cr → cr.2.length ≤ s.length := by
  intro as
  induction as with
  | nil =>
    intro s cr h
    simp only [matchSeq, Option.some.injEq] at h
    simp [← h]
  | cons a as ih =>
    intro s cr h
    match a, s with
    | .lit c, [] => simp [matchSeq] at h
    | .lit c, x :: s =>
      simp only [matchSeq] at h
      split at h
      · exact le_trans (ih s cr h) (Nat.le_succ _)
      · exact absurd h (by simp)
    | .plus p lazyRun cap, s =>
      simp only [matchSeq] at h
      obtain ⟨k, hk, hf⟩ := List.exists_of_findSome?_eq_some h
      obtain ⟨cr', hcr', heq⟩ := Option.map_eq_some'.mp hf
      have h2 : cr.2 = cr'.2 := by rw [← heq]
      rw [h2]
      calc cr'.2.length ≤ (s.drop k).length := ih _ cr' hcr'
        _ ≤ s.length := by simp

theorem matchSeq_split_rest_lt {s : List Char} {cr} :
    matchSeq splitAtoms s = some cr → cr.2.length < s.length := by
  intro h
  match s with
  | [] => rw [splitAtoms] at h; simp [matchSeq] at h
  | x :: s =>
    rw [splitAtoms] at h
    simp only [matchSeq] at h
    split at h
    · exact Nat.lt_succ_of_le (matchSeq_rest_length_le _ _ _ h)
    · exact absurd h (by simp)

theorem all_of_take_le_takeWhile {α : Type _} (p : α → Bool) :
    ∀ (s : List α) (k : Nat), k ≤ (s.takeWhile p).length →
      ∀ c ∈ s.take k, p c = true := by
  intro s
  induction s with
  | nil => intro k _ c hc; simp at hc
  | cons x s ih =>
    intro k hk c hc
    by_cases hx : p x
    · rw [List.takeWhile_cons_of_pos hx] at hk
      match k with
      | 0 => simp at hc
      | k + 1 =>
        rw [List.take_succ_cons] at hc
        rcases List.mem_cons.mp hc with hc | hc
        · rwa [hc]
        · exact ih k (by simpa using hk) c hc
    · rw [List.takeWhile_cons_of_neg hx] at hk
      simp at hk
      subst hk
      simp at hc

theorem takeWhile_length_ge_of_all {α : Type _} (p : α → Bool) (w t : List α)
    (h : ∀ c ∈ w, p c = true) : w.length ≤ ((w ++ t).takeWhile p).length := by
  induction w with
  | nil => simp
  | cons x w ih =>
    have hx : p x := h x (by simp)
    rw [List.cons_append, List.takeWhile_cons_of_pos hx]
    simpa using ih (fun c hc => h c (by simp [hc]))

/-- Soundness of the engine: a successful run yields a declarative match
with the same remainder. -/
theorem matchSeq_sound :
    ∀ (as : List Atom) (s : List Char) cr,
      matchSeq as s = some cr → MSeq as s cr.2 := by
  intro as
  induction as with
  | nil =>
    intro s cr h
    simp only [matchSeq, Option.some.injEq] at h
    rw [← h]
    exact .nil s
  | cons a as ih =>
    intro s cr h
    match a, s with
    | .lit c, [] => simp [matchSeq] at h
    | .lit c, x :: s =>
      simp only [matchSeq] at h
      split at h
      · rename_i hx
        subst hx
        exact .lit (ih s cr h)
      · exact absurd h (by simp)
    | .plus p lazyRun cap, s =>
      simp only [matchSeq] at h
      obtain ⟨k, hk, hf⟩ := List.exists_of_findSome?_eq_some h
      obtain ⟨cr', hcr', heq⟩ := Option.map_eq_some'.mp hf
      have hkr : k ∈ List.range' 1 (s.takeWhile p).length := by
        cases lazyRun with
        | false => simpa using hk
        | true => simpa using hk
      have hks : 1 ≤ k ∧ k ≤ (s.takeWhile p).length := by
        have := List.mem_range'_1.mp hkr
        omega
      have hr2 : cr.2 = cr'.2 := by rw [← heq]
      have hs : s.take k ++ s.drop k = s := List.take_append_drop k s
      have hw : s.take k ≠ [] := by
        have hm : 1 ≤ s.length := by
          have h1 := hks.2
          have h2 := ( List.takeWhile_prefix (l := s) p).length_le
          omega
        intro hnil
        rcases List.take_eq_nil_iff.mp hnil with h0 | h0
        · omega
        · rw [h0] at hm
          simp at hm
      have hall : ∀ c ∈ s.take k, p c = true :=
        all_of_take_le_takeWhile p s k hks.2
      rw [hr2, ← hs]
      exact .plus hw hall (ih (s.drop k) cr' hcr')

/-- Completeness of the engine: when a declarative match exists, the engine
finds some match. -/
theorem matchSeq_complete {as : List Atom} {s r : List Char}
    (h : MSeq as s r) : ∃ cr, matchSeq as s = some cr := by
  induction h with
  | nil s => exact ⟨([], s), rfl⟩
  | lit _ ih =>
    obtain ⟨cr, hcr⟩ := ih
    exact ⟨cr, by simpa [matchSeq] using hcr⟩
  | @plus p lazyRun cap as w s r hw hall _ ih =>
    obtain ⟨cr, hcr⟩ := ih
    simp only [matchSeq]
    set f : Nat → Option (List (Nat × List Char) × List Char) := fun k =>
      (matchSeq as ((w ++ s).drop k)).map (fun cr =>
        (match cap with
         | some i => (i, (w ++ s).take k) :: cr.1
         | none => cr.1, cr.2)) with hfdef
    have hk : f w.length ≠ none := by
      rw [hfdef]
      simp only [List.drop_left]
      rw [hcr]
      simp
    have hmem : w.length ∈
        (if lazyRun then List.range' 1 ((w ++ s).takeWhile p).length
         else (List.range' 1 ((w ++ s).takeWhile p).length).reverse) := by
      have h1 : 1 ≤ w.length := by
        cases w with
        | nil => exact absurd rfl hw
        | cons _ _ => simp
      have h2 : w.length ≤ ((w ++ s).takeWhile p).length :=
        takeWhile_length_ge_of_all p w s hall
      have hL : w.length ∈ List.range' 1 ((w ++ s).takeWhile p).length :=
        List.mem_range'_1.mpr ⟨h1, by omega⟩
      cases lazyRun with
      | false => simpa using hL
      | true => simpa using hL
    rcases hfind : (if lazyRun then List.range' 1 ((w ++ s).takeWhile p).length
        else (List.range' 1 ((w ++ s).takeWhile p).length).reverse).findSome? f
      with _ | cr₂
    · rw [List.findSome?_eq_none_iff] at hfind
      exact absurd (hfind _ hmem) hk
    · exact ⟨cr₂, rfl⟩

/-- Pointwise weakening of atoms: same literals, larger character classes.
Laziness and captures are irrelevant to matchability. -/
def atomImp : Atom → Atom → Prop
  | .lit c, .lit c' => c = c'
  | .plus p _ _, .plus p' _ _ => ∀ c, p c = true → p' c = true
  | _, _ => False

/-- A declarative match survives pointwise weakening of the pattern. -/
theorem mseq_mono :
    ∀ {as as' : List Atom} {s r : List Char},
      List.Forall₂ atomImp as as' → MSeq as s r → MSeq as' s r := by
  intro as as' s r hf h
  induction h generalizing as' with
  | nil s =>
    cases hf
    exact .nil s
  | lit _ ih =>
    cases hf with
    | cons ha hf =>
      rename_i a' as₂
      match a', ha with
      | .lit c', ha =>
        cases ha
        exact .lit (ih hf)
  | plus hw hall _ ih =>
    cases hf with
    | cons ha hf =>
      rename_i a' as₂
      match a', ha with
      | .plus p' lz' cap', ha =>
        exact .plus hw (fun c hc => ha c (hall c hc)) (ih hf)

/-- A declarative match consumes a prefix: `s = w ++ r` with `as` matching
`w` entirely. -/
theorem mseq_decomp :
    ∀ {as : List Atom} {s r : List Char},
      MSeq as s r → ∃ w, s = w ++ r ∧ MSeq as w [] := by
  intro as s r h
  induction h with
  | nil s => exact ⟨[], rfl, .nil []⟩
  | @lit c _ _ _ _ ih =>
    obtain ⟨w, hw, hm⟩ := ih
    exact ⟨c :: w, by simp [hw], .lit hm⟩
  | @plus p lazyRun cap as w s r hw hall _ ih =>
    obtain ⟨w₂, hw₂, hm⟩ := ih
    refine ⟨w ++ w₂, by simp [hw₂], ?_⟩
    have := @MSeq.plus p lazyRun cap as w w₂ [] hw hall hm
    simpa using this

/-- When the last atom is a literal, a full declarative match ends with that
character. -/
theorem mseq_getLast :
    ∀ {as : List Atom} {u r : List Char} {c : Char},
      MSeq as u r → r = [] → as.getLast? = some (.lit c) → u.getLast? = some c := by
  intro as u r c h
  induction h with
  | nil s => intro _ hl; simp at hl
  | @lit c' as s r hm ih =>
    intro hr hl
    subst hr
    match as, hm with
    | [], hm =>
      cases hm
      simp at hl
      cases hl
      rfl
    | a :: as₂, hm =>
      have hl' : (a :: as₂).getLast? = some (.lit c) := by
        rwa [List.getLast?_cons_cons] at hl
      have hu := ih rfl hl'
      have hne : s ≠ [] := by
        intro hnil
        rw [hnil] at hu
        simp at hu
      cases s with
      | nil => exact absurd rfl hne
      | cons y ys =>
        rw [List.getLast?_cons_cons]
        exact hu
  | @plus p lazyRun cap as w s r hw hall hm ih =>
    intro hr hl
    subst hr
    match as, hm with
    | [], hm =>
      cases hm
      simp at hl
    | a :: as₂, hm =>
      have hl' : (a :: as₂).getLast? = some (.lit c) := by
        rwa [List.getLast?_cons_cons] at hl
      have hu := ih rfl hl'
      have hne : s ≠ [] := by
        intro hnil
        rw [hnil] at hu
        simp at hu
      rw [List.getLast?_append_of_ne_nil _ hne]
      exact hu

/-- A full match of the splitting pattern starts with `B` and ends with
`]`. -/
theorem split_match_shape {u : List Char} (h : MSeq splitAtoms u []) :
    (∃ t, u = 'B' :: t) ∧ u.getLast? = some ']' := by
  constructor
  · rw [splitAtoms] at h
    cases h with
    | lit h => exact ⟨_, rfl⟩
  · exact mseq_getLast h rfl (by rw [splitAtoms]; rfl)

/-- The splitting pattern is a pointwise strengthening of the header
pattern: every split match is also declaratively header-matchable. -/
theorem split_imp_header : List.Forall₂ atomImp splitAtoms headerAtoms := by
  rw [splitAtoms, headerAtoms]
  refine .cons rfl (.cons rfl (.cons rfl (.cons rfl ?_)))
  refine .cons (fun c h => h) (.cons (fun c h => h) (.cons (fun c h => h) ?_))
  refine .cons ?_ (.cons (fun c h => h) (.cons rfl (.cons (fun c h => h)
    (.cons rfl .nil))))
  intro c h
  simp only [titleCharSplit, Bool.not_eq_true', Bool.or_eq_false_iff,
    decide_eq_false_iff_not] at h
  simp [titleCharHeader, h.1]

/-- A full match of the splitting pattern re-matches the header pattern run
by the engine (line 70 never fails on a section produced by the split of
line 61). -/
theorem header_rematch {u : List Char} (h : MSeq splitAtoms u []) :
    ∃ cr, matchSeq headerAtoms u = some cr := by
  have h2 : MSeq headerAtoms u [] := mseq_mono split_imp_header h
  exact matchSeq_complete h2

/-- Every capture group named by an atom of the pattern is present in a
successful engine run's capture list. -/
theorem matchSeq_cap_present :
    ∀ (as : List Atom) (s : List Char) cr (i : Nat),
      matchSeq as s = some cr →
      (∃ p lz, Atom.plus p lz (some i) ∈ as) →
      ∃ w, (i, w) ∈ cr.1 := by
  intro as
  induction as with
  | nil =>
    intro s cr i _ hm
    obtain ⟨p, lz, hp⟩ := hm
    simp at hp
  | cons a as ih =>
    intro s cr i h hm
    match a, s with
    | .lit c, [] => simp [matchSeq] at h
    | .lit c, x :: s =>
      simp only [matchSeq] at h
      split at h
      · obtain ⟨p, lz, hp⟩ := hm
        rcases List.mem_cons.mp hp with hp | hp
        · exact absurd hp (by simp)
        · exact ih s cr i h ⟨p, lz, hp⟩
      · exact absurd h (by simp)
    | .plus p₀ lazyRun cap, s =>
      simp only [matchSeq] at h
      obtain ⟨k, hk, hf⟩ := List.exists_of_findSome?_eq_some h
      obtain ⟨cr', hcr', heq⟩ := Option.map_eq_some'.mp hf
      obtain ⟨p, lz, hp⟩ := hm
      rcases List.mem_cons.mp hp with hp | hp
      · cases hp
        rw [← heq]
        exact ⟨s.take k, by simp⟩
      · obtain ⟨w, hw⟩ := ih (s.drop k) cr' i hcr' ⟨p, lz, hp⟩
        refine ⟨w, ?_⟩
        rw [← heq]
        cases cap <;> simp [hw]

/-- On a full split match, `headerGroups` succeeds: the header pattern
matches and all three groups are captured. -/
theorem headerGroups_isSome_of_match {u : List Char}
    (h : MSeq splitAtoms u []) : ∃ g, headerGroups u = some g := by
  obtain ⟨cr, hcr⟩ := header_rematch h
  obtain ⟨caps, rest⟩ := cr
  have cap1 : ∃ w, (1, w) ∈ caps :=
    matchSeq_cap_present _ _ _ 1 hcr
      ⟨digitChar, false, by rw [headerAtoms]; simp⟩
  have cap2 : ∃ w, (2, w) ∈ caps :=
    matchSeq_cap_present _ _ _ 2 hcr
      ⟨titleCharHeader, true, by rw [headerAtoms]; simp⟩
  have cap3 : ∃ w, (3, w) ∈ caps :=
    matchSeq_cap_present _ _ _ 3 hcr
      ⟨authorChar, false, by rw [headerAtoms]; simp⟩
  have find1 : (caps.find? (fun g => g.1 = 1)).isSome := by
    rw [List.find?_isSome]
    obtain ⟨w, hw⟩ := cap1
    exact ⟨(1, w), hw, by simp⟩
  have find2 : (caps.find? (fun g => g.1 = 2)).isSome := by
    rw [List.find?_isSome]
    obtain ⟨w, hw⟩ := cap2
    exact ⟨(2, w), hw, by simp⟩
  have find3 : (caps.find? (fun g => g.1 = 3)).isSome := by
    rw [List.find?_isSome]
    obtain ⟨w, hw⟩ := cap3
    exact ⟨(3, w), hw, by simp⟩
  obtain ⟨g1, hg1⟩ := Option.isSome_iff_exists.mp find1
  obtain ⟨g2, hg2⟩ := Option.isSome_iff_exists.mp find2
  obtain ⟨g3, hg3⟩ := Option.isSome_iff_exists.mp find3
  exact ⟨(g1.2, g2.2, g3.2), by simp [headerGroups, hcr, hg1, hg2, hg3]⟩

/-- A full split match is unchanged by `str.strip()`: it starts with `B` and
ends with `]`. -/
theorem pyStrip_of_match {u : List Char} (h : MSeq splitAtoms u []) :
    pyStrip u = u := by
  obtain ⟨⟨t, ht⟩, hlast⟩ := split_match_shape h
  rw [pyStrip]
  have h1 : u.dropWhile wsChar = u := by
    rw [ht]
    exact List.dropWhile_cons_of_neg (by decide)
  rw [h1]
  have h2 : u.reverse.head? = some ']' := by
    rw [List.head?_reverse]
    exact hlast
  have h3 : u.reverse.dropWhile wsChar = u.reverse := by
    cases hr : u.reverse with
    | nil => rfl
    | cons y ys =>
      rw [hr] at h2
      simp only [List.head?_cons, Option.some.injEq] at h2
      subst h2
      exact List.dropWhile_cons_of_neg (by decide)
  rw [h3, List.reverse_reverse]

theorem scanSplitF_matches :
    ∀ (fuel : Nat) (s : List Char), s.length ≤ fuel →
      ∀ mt ∈ (scanSplitF fuel s).2, MSeq splitAtoms mt.1 [] := by
  intro fuel
  induction fuel with
  | zero =>
    intro s _ mt hmt
    simp [scanSplitF] at hmt
  | succ fuel ih =>
    intro s hs mt hmt
    match s with
    | [] => simp [scanSplitF] at hmt
    | x :: s' =>
      rw [scanSplitF] at hmt
      rcases hm : matchSeq splitAtoms (x :: s') with _ | cr
      · rw [hm] at hmt
        simp only at hmt
        exact ih s' (by simpa using Nat.le_of_succ_le_succ hs) mt hmt
      · rw [hm] at hmt
        simp only [List.mem_cons] at hmt
        rcases hmt with hmt | hmt
        · have hsound := matchSeq_sound _ _ _ hm
          obtain ⟨w, hw, hmw⟩ := mseq_decomp hsound
          have hco : (x :: s').take ((x :: s').length - cr.2.length) = w := by
            rw [hw, List.length_append, Nat.add_sub_cancel, List.take_left]
          rw [hmt]
          show MSeq splitAtoms ((x :: s').take ((x :: s').length - cr.2.length)) []
          rw [hco]
          exact hmw
        · have hlt : cr.2.length < (x :: s').length := matchSeq_split_rest_lt hm
          have hle : cr.2.length ≤ fuel := by
            simp only [List.length_cons] at hlt hs
            omega
          exact ih cr.2 hle mt hmt

/-- Every match section the scan of the input produces is a full match of
the splitting pattern. -/
theorem scanSplit_matches (s : List Char) :
    ∀ mt ∈ (scanSplit s).2, MSeq splitAtoms mt.1 [] :=
  scanSplitF_matches s.length s le_rfl

/-- The loop of `parse_multiple_books` turns each (header, body) pair of the
scan into exactly one item, in order, whose quiz text is the header followed
by the stripped body. -/
theorem processSections_pairs :
    ∀ pairs : List (List Char × List Char),
      (∀ mt ∈ pairs, MSeq splitAtoms mt.1 []) →
      List.Forall₂ (fun (bd : BookData) mt =>
          bd.quiz_content = mt.1 ++ '\n' :: pyStrip mt.2)
        (processSections (pairs.flatMap (fun mt => [mt.1, mt.2]))) pairs := by
  intro pairs
  induction pairs with
  | nil =>
    intro _
    simp only [List.flatMap_nil, processSections]
    exact .nil
  | cons mt rest ih =>
    intro hall
    have hm : MSeq splitAtoms mt.1 [] := hall mt (by simp)
    have hstrip : pyStrip mt.1 = mt.1 := pyStrip_of_match hm
    obtain ⟨g, hg⟩ := headerGroups_isSome_of_match hm
    simp only [List.flatMap_cons, List.cons_append, List.nil_append]
    rw [processSections]
    simp only [hstrip, hg]
    obtain ⟨num, title, author⟩ := g
    simp only [List.singleton_append]
    exact .cons rfl (ih (fun mt' hmt' => hall mt' (by simp [hmt'])))

/-! ## Lemmas about the batch orchestrator -/

theorem countBatch_eq :
    ∀ (rs : List PipeResult) (acc : Counters),
      countBatch acc rs =
        ⟨acc.successful + rs.count .success,
         acc.failed + (rs.length - rs.count .success)⟩ := by
  intro rs
  induction rs with
  | nil => intro acc; simp [countBatch]
  | cons r rs ih =>
    intro acc
    have hc : rs.count PipeResult.success ≤ rs.length := List.count_le_length _ _
    cases r with
    | success =>
      rw [countBatch, ih]
      refine congrArg₂ Counters.mk ?_ ?_ <;>
        simp [List.count_cons] <;> omega
    | failure =>
      rw [countBatch, ih]
      refine congrArg₂ Counters.mk ?_ ?_ <;>
        simp [List.count_cons] <;> omega
    | exn =>
      rw [countBatch, ih]
      refine congrArg₂ Counters.mk ?_ ?_ <;>
        simp [List.count_cons] <;> omega

theorem chunks_flatten_aux (B : Nat) :
    ∀ (n : Nat) (l : List α), l.length ≤ n → (chunks B l).flatten = l := by
  intro n
  induction n with
  | zero =>
    intro l h
    match l with
    | [] => simp [chunks]
    | x :: xs => simp at h
  | succ n ih =>
    intro l h
    match l with
    | [] => simp [chunks]
    | x :: xs =>
      simp only [chunks, List.flatten_cons]
      rw [ih (xs.drop (B - 1))
        (by simp only [List.length_drop]; simp only [List.length_cons] at h; omega)]
      rw [List.cons_append, List.take_append_drop]

/-- The windows partition the item list: concatenated in order they give
back the input. -/
theorem chunks_flatten (B : Nat) (l : List α) : (chunks B l).flatten = l :=
  chunks_flatten_aux B l.length l le_rfl

theorem chunks_length_aux (B : Nat) (hB : 0 < B) :
    ∀ (n : Nat) (l : List α), l.length ≤ n → l ≠ [] →
      (chunks B l).length = (l.length - 1) / B + 1 := by
  intro n
  induction n with
  | zero =>
    intro l h hne
    match l with
    | [] => exact absurd rfl hne
    | x :: xs => simp at h
  | succ n ih =>
    intro l h hne
    match l with
    | [] => exact absurd rfl hne
    | x :: xs =>
      simp only [chunks, List.length_cons]
      by_cases hd : xs.drop (B - 1) = []
      · have hlen : xs.length ≤ B - 1 := by
          have := List.length_drop (B - 1) xs
          rw [hd] at this
          simp at this
          omega
        rw [hd]
        simp only [chunks, List.length_nil]
        have : (xs.length + 1 - 1) / B = 0 := Nat.div_eq_of_lt (by omega)
        omega
      · have hlen : B - 1 < xs.length := by
          by_contra hcon
          exact hd (List.drop_eq_nil_of_le (by omega))
        rw [ih (xs.drop (B - 1))
          (by simp only [List.length_drop]; simp only [List.length_cons] at h; omega)
          hd]
        simp only [List.length_drop]
        have harith : (xs.length - (B - 1) - 1) + B = xs.length + 1 - 1 := by omega
        rw [← harith, Nat.add_div_right _ hB]

/-- Number of windows of the batch loop: `ceil(N / B)` for a non-empty
input. -/
theorem chunks_length (B : Nat) (hB : 0 < B) (l : List α) (hne : l ≠ []) :
    (chunks B l).length = (l.length + B - 1) / B := by
  rw [chunks_length_aux B hB l.length l le_rfl hne]
  have hl : 1 ≤ l.length := by
    cases l with
    | nil => exact absurd rfl hne
    | cons _ _ => simp
  have : l.length + B - 1 = (l.length - 1) + B := by omega
  rw [this, Nat.add_div_right _ hB]

theorem chunks_sizes (B : Nat) (hB : 0 < B) :
    ∀ (n : Nat) (l : List α), l.length ≤ n →
      ∀ c ∈ chunks B l, c.length ≤ B ∧ c ≠ [] := by
  intro n
  induction n with
  | zero =>
    intro l h c hc
    match l with
    | [] => simp [chunks] at hc
    | x :: xs => simp at h
  | succ n ih =>
    intro l h c hc
    match l with
    | [] => simp [chunks] at hc
    | x :: xs =>
      simp only [chunks, List.mem_cons] at hc
      rcases hc with hc | hc
      · subst hc
        constructor
        · simp only [List.length_cons]
          have := List.length_take_le (B - 1) xs
          omega
        · simp
      · exact ih (xs.drop (B - 1))
          (by simp only [List.length_drop]; simp only [List.length_cons] at h; omega)
          c hc

theorem delayCount_aux (B : Nat) (hB : 0 < B) :
    ∀ (n : Nat) (l : List α), l.length ≤ n → l ≠ [] →
      delayCount B l = (chunks B l).length - 1 := by
  intro n
  induction n with
  | zero =>
    intro l h hne
    match l with
    | [] => exact absurd rfl hne
    | x :: xs => simp at h
  | succ n ih =>
    intro l h hne
    match l with
    | [] => exact absurd rfl hne
    | x :: xs =>
      simp only [delayCount, chunks, List.length_cons]
      by_cases hd : xs.drop (B - 1) = []
      · simp [hd, delayCount, chunks]
      · have hne2 : (xs.drop (B - 1)).isEmpty = false := by
          simp [List.isEmpty_iff, hd]
        rw [hne2]
        simp only [if_false, Bool.false_eq_true]
        rw [ih (xs.drop (B - 1))
          (by simp only [List.length_drop]; simp only [List.length_cons] at h; omega)
          hd]
        have hpos : 0 < (chunks B (xs.drop (B - 1))).length := by
          match hm : xs.drop (B - 1) with
          | [] => exact absurd hm hd
          | y :: ys => simp [chunks]
        omega

/-- The inter-batch delay runs once per window except the last. -/
theorem delayCount_eq (B : Nat) (hB : 0 < B) (l : List α) (hne : l ≠ []) :
    delayCount B l = (chunks B l).length - 1 :=
  delayCount_aux B hB l.length l le_rfl hne

theorem foldl_countBatch_succ (run1 : α → PipeResult) :
    ∀ (bs : List (List α)) (acc : Counters),
      (bs.foldl (fun acc batch => countBatch acc (batchResults run1 batch))
          acc).successful =
        acc.successful + ((bs.flatten).map run1).count .success := by
  intro bs
  induction bs with
  | nil => intro acc; simp
  | cons b bs ih =>
    intro acc
    rw [List.foldl_cons, ih, countBatch_eq]
    simp only [batchResults, List.flatten_cons, List.map_append,
      List.count_append]
    omega

theorem foldl_countBatch_sum (run1 : α → PipeResult) :
    ∀ (bs : List (List α)) (acc : Counters),
      (bs.foldl (fun acc batch => countBatch acc (batchResults run1 batch))
            acc).successful +
          (bs.foldl (fun acc batch => countBatch acc (batchResults run1 batch))
            acc).failed =
        acc.successful + acc.failed + (bs.flatten).length := by
  intro bs
  induction bs with
  | nil => intro acc; simp
  | cons b bs ih =>
    intro acc
    rw [List.foldl_cons, ih, countBatch_eq]
    have hcb : (batchResults run1 b).count PipeResult.success ≤
        (batchResults run1 b).length := List.count_le_length _ _
    simp only [batchResults, List.flatten_cons, List.length_append,
      List.length_map] at *
    omega

/-- `successful` counts exactly the items whose own pipeline returned
`True`. -/
theorem batches_successful (run1 : α → PipeResult) (books : List α) (B : Nat) :
    (process_books_in_batches run1 books B).successful =
      (books.map run1).count .success := by
  rw [process_books_in_batches, foldl_countBatch_succ, chunks_flatten]
  simp

/-- Every item is counted exactly once. -/
theorem batches_total (run1 : α → PipeResult) (books : List α) (B : Nat) :
    (process_books_in_batches run1 books B).successful +
        (process_books_in_batches run1 books B).failed = books.length := by
  rw [process_books_in_batches, foldl_countBatch_sum, chunks_flatten]
  simp

/-- The window results, concatenated in window order, are exactly the items'
own pipeline results in document order. -/
theorem batches_outcomes (run1 : α → PipeResult) (books : List α) (B : Nat) :
    ((chunks B books).map (batchResults run1)).flatten = books.map run1 := by
  have h : ((chunks B books).map (batchResults run1)).flatten =
      ((chunks B books).flatten).map run1 := by
    induction chunks B books with
    | nil => simp
    | cons c cs ih => simp [batchResults, ih]
  rw [h, chunks_flatten]

/-! ## Claim theorems -/

/-- C1: for every run over an item list of length N (any window size
`B > 0`, any per-item pipeline results, including when every item fails),
the final summary counters satisfy `successful + failed = N`: each item
contributes exactly one outcome, counted as exactly one of the two. -/
theorem claim_C1 (run1 : α → PipeResult) (books : List α) (B : Nat)
    (hB : 0 < B) :
    (process_books_in_batches run1 books B).successful +
      (process_books_in_batches run1 books B).failed = books.length :=
  batches_total run1 books B

theorem claim_C1_witness :
    (process_books_in_batches
        (fun n => if n = 2 then PipeResult.failure else .success)
        [1, 2, 3, 4] 3).successful +
      (process_books_in_batches
        (fun n => if n = 2 then PipeResult.failure else .success)
        [1, 2, 3, 4] 3).failed = 4 :=
  claim_C1 (fun n => if n = 2 then PipeResult.failure else .success)
    [1, 2, 3, 4] 3 (by decide)

/-- C2: a failure of one item's pipeline — returning `False` at any stage or
raising an exception captured by the gather — terminates only that item's
pipeline.  The gathered window results, in order, are exactly each item's
own pipeline result (so every other item in the same and later windows still
reaches exactly one terminal state, unaffected by the failing item), and
every item is counted in the summary: the run does not abort. -/
theorem claim_C2 (run1 : α → PipeResult) (books : List α) (B : Nat) (j : Nat)
    (hB : 0 < B) (hj : j < books.length)
    (hfail : run1 (books.get ⟨j, hj⟩) ≠ .success) :
    ((chunks B books).map (batchResults run1)).flatten = books.map run1 ∧
    (process_books_in_batches run1 books B).successful +
      (process_books_in_batches run1 books B).failed = books.length :=
  ⟨batches_outcomes run1 books B, batches_total run1 books B⟩

theorem claim_C2_witness :
    ((chunks 3 [1, 2, 3]).map
        (batchResults (fun n => if n = 2 then PipeResult.exn else .success))).flatten
      = [1, 2, 3].map (fun n => if n = 2 then PipeResult.exn else .success) ∧
    (process_books_in_batches
        (fun n => if n = 2 then PipeResult.exn else .success) [1, 2, 3] 3).successful +
      (process_books_in_batches
        (fun n => if n = 2 then PipeResult.exn else .success) [1, 2, 3] 3).failed
      = 3 :=
  claim_C2 (fun n => if n = 2 then PipeResult.exn else .success) [1, 2, 3] 3 1
    (by decide) (by decide) (by decide)

/-- C3: for a non-empty item list and window size `B > 0`, the orchestrator
partitions the items in document order into exactly `ceil(N / B)`
consecutive windows of at most `B` items each, and the inter-batch delay
runs exactly `ceil(N / B) - 1` times — after every window except the
last. -/
theorem claim_C3 (books : List α) (B : Nat) (hB : 0 < B) (hne : books ≠ []) :
    (chunks B books).length = (books.length + B - 1) / B ∧
    (chunks B books).flatten = books ∧
    (∀ c ∈ chunks B books, c.length ≤ B ∧ c ≠ []) ∧
    delayCount B books = (books.length + B - 1) / B - 1 := by
  refine ⟨chunks_length B hB books hne, chunks_flatten B books,
    chunks_sizes B hB books.length books le_rfl, ?_⟩
  rw [delayCount_eq B hB books hne, chunks_length B hB books hne]

theorem claim_C3_witness :
    (chunks 2 [1, 2, 3, 4, 5]).length = 3 ∧
    (chunks 2 [1, 2, 3, 4, 5]).flatten = [1, 2, 3, 4, 5] ∧
    (∀ c ∈ chunks 2 [1, 2, 3, 4, 5], c.length ≤ 2 ∧ c ≠ []) ∧
    delayCount 2 [1, 2, 3, 4, 5] = 2 :=
  claim_C3 [1, 2, 3, 4, 5] 2 (by decide) (by decide)

/-- C4 as stated is false.  The document below contains exactly one
well-formed header section (`Book 2 B [Y]`) interleaved with malformed ones:
`Book 1 A [X` has no closing bracket, and `]` is a stray bracket line.  Yet
the parser returns two items, the malformed section produced the item
numbered `1` (its author run swallowed text across section boundaries), so
the item list is not the well-formed sections. -/
theorem claim_C4_counterexample :
    specHeaderOk "Book 1 A [X".data = false ∧
    specHeaderOk "]".data = false ∧
    specHeaderOk "Book 2 B [Y]".data = true ∧
    (parse_multiple_books "Book 1 A [X\n]\nBook 2 B [Y]".data).map
      BookData.book_number = ["1".data, "2".data] := by
  refine ⟨by decide, by decide, by decide, ?_⟩
  set_option maxRecDepth 20000 in decide

/-- C4 (amended): for every input document, the parser returns exactly one
item per leftmost non-overlapping match of the book-header pattern, in
source order, each item's quiz text being the matched header followed by the
stripped body text running to the next match (or the end); text outside
matches produces no item, and parsing never fails.  However, the author run
of the pattern may extend across line and section boundaries to the next
`]`, so a section with an unclosed bracket can itself match and swallow
later well-formed headers. -/
theorem claim_C4_amended (content : List Char) :
    List.Forall₂
      (fun (bd : BookData) mt => bd.quiz_content = mt.1 ++ '\n' :: pyStrip mt.2)
      (parse_multiple_books content) (scanSplit content).2 := by
  rw [parse_multiple_books, re_split_book]
  simp only [List.drop_succ_cons, List.drop_zero]
  exact processSections_pairs _ (scanSplit_matches content)

/-- C5 as stated is false.  For the title `a_b` the primary query is `a_b`
and the primary lookup finds nothing (404).  By the claim the simplified
query is `ab` (underscore removed: not alphanumeric, not whitespace), which
differs from the primary query, so a second lookup with `ab` would have to
be issued.  The code instead keeps the underscore (Python `\w`), so its
simplified title equals the primary query and no second lookup happens. -/
theorem claim_C5_counterexample :
    specSimplifiedQuery "a_b".data ≠ "a_b".data ∧
    simplifiedTitleOf "a_b".data = "a_b".data ∧
    (get_book_by_title (fun _ => .notFound) "a_b".data).queries =
      ["a_b".data] := by
  exact ⟨by decide, by decide, by decide⟩

/-- The queries `get_book_by_title` issues, characterised exactly. -/
theorem get_book_queries (lookup : List Char → LookupResp) (title : List Char) :
    (get_book_by_title lookup title).queries =
      searchTitleOf title ::
        (if lookup (searchTitleOf title) ≠ .raiseErr ∧
            hitOf (lookup (searchTitleOf title)) = none ∧
            simplifiedTitleOf (searchTitleOf title) ≠ searchTitleOf title
         then [simplifiedTitleOf (searchTitleOf title)] else []) := by
  cases hl : lookup (searchTitleOf title) with
  | raiseErr => simp [get_book_by_title, hl]
  | ok succ result =>
    simp only [get_book_by_title, hl]
    rcases hh : hitOf (LookupResp.ok succ result) with _ | b
    · simp only [hh]
      by_cases hs :
          simplifiedTitleOf (searchTitleOf title) = searchTitleOf title <;>
        simp [hh, hs] <;>
        (cases lookup (simplifiedTitleOf (searchTitleOf title)) <;> rfl)
    · simp [hh]
  | notFound =>
    simp only [get_book_by_title, hl]
    by_cases hs :
        simplifiedTitleOf (searchTitleOf title) = searchTitleOf title <;>
      simp [hitOf, hs] <;>
      (cases lookup (simplifiedTitleOf (searchTitleOf title)) <;> rfl)
  | apiError code =>
    simp only [get_book_by_title, hl]
    by_cases hs :
        simplifiedTitleOf (searchTitleOf title) = searchTitleOf title <;>
      simp [hitOf, hs] <;>
      (cases lookup (simplifiedTitleOf (searchTitleOf title)) <;> rfl)

/-- C5 (amended): the resolver's primary query is the title with a leading
literal `Let's ` removed when present; the second query is the primary query
with every character that is not a word character (alphanumeric or
underscore, Python `\w`) and not whitespace removed and the result stripped
of surrounding whitespace; the second lookup is issued exactly when the
first attempt returned — without raising — no valid entry and that
simplified query differs from the primary query. -/
theorem claim_C5_amended (lookup : List Char → LookupResp) (title : List Char) :
    (get_book_by_title lookup title).queries =
      searchTitleOf title ::
        (if lookup (searchTitleOf title) ≠ .raiseErr ∧
            hitOf (lookup (searchTitleOf title)) = none ∧
            simplifiedTitleOf (searchTitleOf title) ≠ searchTitleOf title
         then [simplifiedTitleOf (searchTitleOf title)] else []) :=
  get_book_queries lookup title

/-- C6 as stated is false.  With the title `Hi!` the first lookup fails with
an API error (HTTP 500, neither 200 nor 404); the claim requires the
resolver to perform no further lookup attempt, but the code falls through to
the simplified-query attempt and issues a second lookup with `Hi`. -/
theorem claim_C6_counterexample :
    (get_book_by_title (fun _ => .apiError 500) "Hi!".data).queries =
      ["Hi!".data, "Hi".data] := by
  decide

/-- C6 (amended): a lookup attempt that raises (transport error, body-parse
error) aborts resolution immediately: the resolver returns Unresolved having
issued only the primary query.  An API error status other than 200/404 does
not raise and does not suppress the fallback: the simplified-query second
attempt is still made whenever the simplified query differs from the
primary. -/
theorem claim_C6_amended (lookup : List Char → LookupResp) (title : List Char) :
    (lookup (searchTitleOf title) = .raiseErr →
      get_book_by_title lookup title = ⟨none, [searchTitleOf title]⟩) ∧
    (∀ code, lookup (searchTitleOf title) = .apiError code →
      simplifiedTitleOf (searchTitleOf title) ≠ searchTitleOf title →
      (get_book_by_title lookup title).queries =
        [searchTitleOf title, simplifiedTitleOf (searchTitleOf title)]) := by
  constructor
  · intro hl
    simp [get_book_by_title, hl]
  · intro code hl hs
    rw [get_book_queries lookup title]
    rw [hl]
    simp [hitOf, hs]

theorem claim_C6_witness :
    get_book_by_title (fun _ => .raiseErr) "T".data =
      ⟨none, ["T".data]⟩ ∧
    (get_book_by_title (fun q => if q = "Ti!".data then .apiError 503
        else .notFound) "Ti!".data).queries =
      ["Ti!".data, "Ti".data] :=
  ⟨(claim_C6_amended (fun _ => .raiseErr) "T".data).1 rfl,
   (claim_C6_amended (fun q => if q = "Ti!".data then .apiError 503
      else .notFound) "Ti!".data).2 503 (by decide) (by decide)⟩

/-- C7 as stated is false.  With `AUTH_TOKEN` missing, the fatal setup
condition occurs — `__init__` raises, the run aborts before any window — yet
the process still exits with status 0: `main` catches the exception and only
logs it, so `asyncio.run(main())` completes normally. -/
theorem claim_C7_counterexample :
    pyMainTrace (fun _ => PipeResult.failure) ⟨none, true, "x".data⟩ =
      .error "AUTH_TOKEN not found in environment variables".data ∧
    pyMainExit (fun _ => PipeResult.failure) ⟨none, true, "x".data⟩ = 0 := by
  exact ⟨rfl, rfl⟩

/-- C7 (amended): the process exits with status 0 in every case — on a
completed run regardless of how many items failed, and also on every fatal
setup condition (missing credential, missing or unreadable input document),
because `main` catches and only logs every exception and the early returns
of `process_all_books` end the run quietly. -/
theorem claim_C7_amended (run1 : BookData → PipeResult) (env : Env) :
    pyMainExit run1 env = 0 := by
  rw [pyMainExit]
  cases pyMainTrace run1 env <;> rfl

/-- C8 as stated is false.  The JSON below violates the StructuredQuiz
invariants — its only question has an empty `correctAnswers` — yet pydantic
validation of `single_book_suggestion_response` accepts it (the result is
`some`, i.e. treated as a formatter success rather than a FormatError):
the invariants evaluate to `false` on the accepted value. -/
theorem claim_C8_counterexample :
    (validate_response (JValue.jObj
      [("bookId".data, JValue.jInt 7),
       ("bookName".data, JValue.jStr "B".data),
       ("questions".data, JValue.jArr
         [JValue.jObj
           [("questionNo".data, JValue.jInt 1),
            ("content".data, JValue.jStr "Q".data),
            ("options".data, JValue.jArr [JValue.jStr "a".data]),
            ("correctAnswers".data, JValue.jArr [])]])])).map
      specQuizInvariants = some false := by
  rfl

theorem asDictList_map :
    ∀ qs : List (List (List Char × JValue)),
      asDictList (qs.map JValue.jObj) = some qs := by
  intro qs
  induction qs with
  | nil => rfl
  | cons q qs ih => simp [asDictList, ih]

/-- C8 (amended): a formatter result is treated as success exactly when the
response parses as JSON matching the declared field types — `bookId` an
integer, `bookName` a string, `questions` any list of JSON objects.  The
StructuredQuiz invariants (non-empty `correctAnswers` contained in
`options`, unique increasing numbers) are never checked: every questions
list whatsoever is accepted. -/
theorem claim_C8_amended (i : Int) (n : List Char)
    (qs : List (List (List Char × JValue))) :
    validate_response (JValue.jObj
      [("bookId".data, .jInt i), ("bookName".data, .jStr n),
       ("questions".data, .jArr (qs.map JValue.jObj))]) = some ⟨i, n, qs⟩ := by
  have h1 : jGet
      [("bookId".data, JValue.jInt i), ("bookName".data, JValue.jStr n),
       ("questions".data, JValue.jArr (qs.map JValue.jObj))] "bookId".data =
      some (JValue.jInt i) := rfl
  have h2 : jGet
      [("bookId".data, JValue.jInt i), ("bookName".data, JValue.jStr n),
       ("questions".data, JValue.jArr (qs.map JValue.jObj))] "bookName".data =
      some (JValue.jStr n) := rfl
  have h3 : jGet
      [("bookId".data, JValue.jInt i), ("bookName".data, JValue.jStr n),
       ("questions".data, JValue.jArr (qs.map JValue.jObj))] "questions".data =
      some (JValue.jArr (qs.map JValue.jObj)) := rfl
  simp only [validate_response, h1, h2, h3, asDictList_map, Option.map_some']

/-- C9 as stated is false.  For a completed run with one successful and one
failed item, the report renders the two items identically (the fixed
`Status: Processing attempted` line each), with no successful section, no
failed section, and no per-item failure detail — the renderer receives only
the aggregate counters.  The full rendered report for this run is exactly
the list on the right. -/
theorem claim_C9_counterexample :
    save_results_to_file
      [⟨"1".data, "A".data, "X".data, "".data⟩,
       ⟨"2".data, "B".data, "Y".data, "".data⟩]
      ⟨1, 1⟩ "d".data "f".data =
    [.separator, .titleBanner, .separator, .processingDate "d".data,
     .totalBooks 2, .successfulCount 1, .failedCount 1, .successRate 1 2,
     .blank, .detailsHeader, .dashRule,
     .bookLine "1".data "A".data, .authorLine "X".data, .statusAttempted,
     .blank,
     .bookLine "2".data "B".data, .authorLine "Y".data, .statusAttempted,
     .blank,
     .fileLocation "f".data, .generatedBy] := rfl

theorem report_bookLines (books : List BookData) :
    (books.flatMap (fun b =>
        [ReportLine.bookLine b.book_number b.title,
         .authorLine b.author, .statusAttempted, .blank])).filterMap
      (fun ln => match ln with
        | ReportLine.bookLine n t => some (n, t)
        | _ => none) =
    books.map (fun b => (b.book_number, b.title)) := by
  induction books with
  | nil => rfl
  | cons b bs ih => simp [List.flatMap_cons, List.filterMap_append, ih]

theorem report_statusCount (books : List BookData) :
    (books.flatMap (fun b =>
        [ReportLine.bookLine b.book_number b.title,
         .authorLine b.author, .statusAttempted, .blank])).count
      ReportLine.statusAttempted = books.length := by
  induction books with
  | nil => rfl
  | cons b bs ih => simp [List.flatMap_cons, List.count_append, ih, List.count_cons]

/-- C9 (amended): the rendered report lists the per-item entries in document
order (the order of the parsed list, which is never re-sorted because it is
never reordered), and carries the aggregate successful/failed counters; but
every item is rendered with the same fixed status line — one per item — so
the report has no successful/failed grouping and no per-item failure
detail. -/
theorem claim_C9_amended (books : List BookData) (results : Counters)
    (d f : List Char) :
    (save_results_to_file books results d f).filterMap
        (fun ln => match ln with
          | ReportLine.bookLine n t => some (n, t)
          | _ => none) =
      books.map (fun b => (b.book_number, b.title)) ∧
    (save_results_to_file books results d f).count .statusAttempted =
      books.length ∧
    ReportLine.successfulCount results.successful ∈
      save_results_to_file books results d f ∧
    ReportLine.failedCount results.failed ∈
      save_results_to_file books results d f := by
  refine ⟨?_, ?_, ?_, ?_⟩
  · simp only [save_results_to_file, List.filterMap_append]
    rw [report_bookLines]
    simp
  · simp only [save_results_to_file, List.count_append]
    rw [report_statusCount]
    simp [List.count_cons]
  · simp [save_results_to_file]
  · simp [save_results_to_file]

/-- C10: a quiz submission is reported as a success exactly when the catalog
responded with HTTP 200 or 201 and the response body parsed as JSON; a
200/201 response with an unparseable body raises inside the `try` and is
reported as a failure, as is any transport error. -/
theorem claim_C10 (status : Nat) (bodyParses : Bool) :
    (create_quiz (.resp status bodyParses) = true ↔
      (status = 200 ∨ status = 201) ∧ bodyParses = true) ∧
    create_quiz .raiseErr = false := by
  constructor
  · simp only [create_quiz]
    by_cases h : (status = 200 || status = 201) = true
    · rw [if_pos h]
      simp at h
      simp [h]
    · rw [if_neg h]
      simp at h
      simp [h]
  · rfl

end QuizSmith
